import Mathlib

/-!
Verification of `hep_ml.losses` and `hep_ml.experiments.reweight`.

The Python code is shallowly embedded over `List ℝ` / `List ℕ`: numpy arrays become
lists of reals, integer index arrays become lists of naturals, float arithmetic becomes
real arithmetic, fallible calls (assertion errors, numpy index errors, TypeErrors)
become `Except Unit`.  In-place mutation of a caller's array is made explicit by
returning the final contents of the array alongside the result.
-/

set_option maxHeartbeats 1600000

noncomputable section

/-! ## numpy primitives -/

/-- Embeds `numpy.mean` for a 1-d array. -/
def npMean (xs : List ℝ) : ℝ := xs.sum / (xs.length : ℝ)

/-- Value of `numpy.bincount(idx, weights=w, ...)` at bucket `b`:
the sum of the weights of the entries of `idx` that equal `b`. -/
def bincountFn (idx : List ℕ) (w : List ℝ) (b : ℕ) : ℝ :=
  ((((idx.zip w).filter (fun p => p.1 == b)).map Prod.snd)).sum

/-- Length of `numpy.bincount(idx)` before `minlength` is taken into account:
one more than the largest entry (0 for the empty array). -/
def bincountLen (idx : List ℕ) : ℕ := idx.foldr (fun a m => max (a + 1) m) 0

/-- Embeds `numpy.bincount(idx, weights=w, minlength=m)` as a list. -/
def npBincount (idx : List ℕ) (w : List ℝ) (minlength : ℕ) : List ℝ :=
  (List.range (max minlength (bincountLen idx))).map (bincountFn idx w)

/-! ## `HessianLossFunction` (losses.py lines 139-171) -/

/-- Embeds `HessianLossFunction.fit`:
`self.regularization_ = self.regularization * numpy.mean(sample_weight)`. -/
def hessianFitRegularization (regularization : ℝ) (sample_weight : List ℝ) : ℝ :=
  regularization * npMean sample_weight

/-- Embeds `HessianLossFunction.prepare_tree_params`.  The abstract methods
`negative_gradient` and `hessian` of the derived loss are taken as parameters. -/
def hessianPrepareTreeParams (negative_gradient hessian : List ℝ → List ℝ)
    (y_pred : List ℝ) : List ℝ × List ℝ :=
  let grad := negative_gradient y_pred
  let hess := (hessian y_pred).map (fun h => h + 0.01)
  (grad.zipWith (fun g h => g / h) hess, hess)

/-- Embeds `HessianLossFunction.prepare_new_leaves_values`:
`bincount(terminal_regions, residual, minlength) / (bincount(terminal_regions, hessian(y_pred),
minlength) + regularization_)` where `minlength = len(leaf_values)`. -/
def hessianPrepareNewLeavesValues (regularizationFitted : ℝ) (nLeaves : ℕ)
    (terminal_regions : List ℕ) (residual hessVals : List ℝ) : List ℝ :=
  let nominators := npBincount terminal_regions residual nLeaves
  let denominators := npBincount terminal_regions hessVals nLeaves
  nominators.zipWith (fun nom den => nom / (den + regularizationFitted)) denominators

/-! ## `RankBoostLossFunction` (losses.py lines 266-388) -/

/-- Fitted state of `RankBoostLossFunction`: number of samples and the zipped
`(lookups, minlengths, penalty_matrices)` triples built by `fit`.  Sparse penalty
matrices are embedded as functions on indices. -/
structure RankBoostFitted where
  nSamples : ℕ
  lookups : List (List ℕ × ℕ × (ℕ → ℕ → ℝ))

/-- Product of a `[n, n]` matrix with a vector (`penalty_matrix.dot(stats)`), at row `j`. -/
def matVec (n : ℕ) (M : ℕ → ℕ → ℝ) (v : ℕ → ℝ) (j : ℕ) : ℝ :=
  ∑ i in Finset.range n, M j i * v i

/-- Embeds `numpy.unique`: the sorted list of distinct values. -/
def npUnique (xs : List ℕ) : List ℕ :=
  (List.range (bincountLen xs)).filter (fun v => xs.contains v)

/-- Embeds the `return_inverse` output of `numpy.unique`: each value replaced by its
index in `npUnique xs`. -/
def npUniqueInv (xs : List ℕ) : List ℕ := xs.map (fun v => (npUnique xs).indexOf v)

/-- Value written into `rank_penalties[r1, r2]`: `(r2 - r1) ** 2` for `'square'`
(`sq = true`), `r2 - r1` for `'linear'`. -/
def penaltyVal (sq : Bool) (r1 r2 : ℕ) : ℝ :=
  if sq then ((r2 : ℝ) - (r1 : ℝ)) ^ 2 else (r2 : ℝ) - (r1 : ℝ)

/-- Final contents of the `rank_penalties` matrix after the double loop of
`RankBoostLossFunction.fit`: nonzero exactly at the written positions, i.e. pairs of
distinct possible ranks with `r1 < r2` (see `buildRankPenalties_value`, which proves this
is what the write loop produces whenever it completes). -/
def rankPenaltiesFn (possibleRanks : List ℕ) (sq : Bool) (r1 r2 : ℕ) : ℝ :=
  if r1 ∈ possibleRanks ∧ r2 ∈ possibleRanks ∧ r1 < r2 then penaltyVal sq r1 r2 else 0

/-- The write loop of `RankBoostLossFunction.fit` over the listed `(r1, r2)` pairs, with
numpy bounds checking: an assignment `rank_penalties[r1, r2] = v` with `r1 ≥ k` or
`r2 ≥ k` raises an IndexError (the matrix has shape `[k, k]`), embedded as
`Except.error`. -/
def writePenalties (k : ℕ) (sq : Bool) :
    List (ℕ × ℕ) → (ℕ → ℕ → ℝ) → Except Unit (ℕ → ℕ → ℝ)
  | [], M => Except.ok M
  | p :: ps, M =>
    if p.1 < p.2 then
      if p.1 < k ∧ p.2 < k then
        writePenalties k sq ps
          (fun a c => if a = p.1 ∧ c = p.2 then penaltyVal sq p.1 p.2 else M a c)
      else Except.error ()
    else writePenalties k sq ps M

/-- The full `for r1 in possible_ranks: for r2 in possible_ranks:` double loop filling
the `[k, k]` matrix `rank_penalties`, starting from `numpy.zeros`. -/
def buildRankPenalties (pr : List ℕ) (k : ℕ) (sq : Bool) : Except Unit (ℕ → ℕ → ℝ) :=
  writePenalties k sq (pr.flatMap (fun r1 => pr.map (fun r2 => (r1, r2)))) (fun _ _ => 0)

/-- True when the embedded computation completed without raising. -/
def exceptOk {α : Type} : Except Unit α → Bool
  | Except.ok _ => true
  | Except.error _ => false

/-- Embeds `RankBoostLossFunction.fit` in the non-raising case: the two lookup schemes
(by normalized rank, and by normalized query times number of ranks plus normalized rank),
their minlengths, and the two scaled penalty matrices (`rank_penalties / sqrt(1+len(y))`
and the per-query block-diagonal `rank_penalties / sqrt(1+n_query)`). -/
def rankBoostFit (queries y : List ℕ) (sq : Bool) : RankBoostFitted :=
  let possibleQueries := npUnique queries
  let normedQueries := npUniqueInv queries
  let normedRanks := npUniqueInv y
  let k := (npUnique y).length
  let nQueries : ℕ → ℕ := fun q => (normedQueries.filter (fun x => x == q)).length
  let P0 : ℕ → ℕ → ℝ := fun a c =>
    rankPenaltiesFn (npUnique y) sq a c / Real.sqrt (1 + (y.length : ℝ))
  let P1 : ℕ → ℕ → ℝ := fun a c =>
    if a / k = c / k then
      rankPenaltiesFn (npUnique y) sq (a % k) (c % k) / Real.sqrt (1 + (nQueries (a / k) : ℝ))
    else 0
  { nSamples := y.length
    lookups := [(normedRanks, k, P0),
      ((normedQueries.zip normedRanks).map (fun p => p.1 * k + p.2),
        k * possibleQueries.length, P1)] }

/-- Embeds `RankBoostLossFunction.fit` including the possible IndexError raised while
filling `rank_penalties` (nothing else in `fit` can raise). -/
def rankBoostFitE (queries y : List ℕ) (sq : Bool) : Except Unit RankBoostFitted :=
  match buildRankPenalties (npUnique y) (npUnique y).length sq with
  | Except.error e => Except.error e
  | Except.ok _ => Except.ok (rankBoostFit queries y sq)

/-- The per-event weight `w_plus` of `_prepare_new_leaves_values`: for each
`(lookup, minlength, penalty_matrix)` triple, `penalty_matrix.dot(neg_stats)[lookup]`,
summed over the triples. -/
def rankWPlus (st : RankBoostFitted) (y_test : List ℝ) (i : ℕ) : ℝ :=
  (st.lookups.map (fun L =>
    matVec L.2.1 L.2.2 (bincountFn L.1 (y_test.map (fun p => Real.exp (-p))))
      (L.1.getD i 0))).sum

/-- The per-event weight `w_minus` of `_prepare_new_leaves_values`:
`penalty_matrix.T.dot(pos_stats)[lookup]`, summed over the triples. -/
def rankWMinus (st : RankBoostFitted) (y_test : List ℝ) (i : ℕ) : ℝ :=
  (st.lookups.map (fun L =>
    matVec L.2.1 (fun a c => L.2.2 c a) (bincountFn L.1 (y_test.map Real.exp))
      (L.1.getD i 0))).sum

/-- Per-leaf sum `numpy.bincount(terminal_regions, weights=w_plus * pos_exponent)[b]`. -/
def rankWPlusLeaf (st : RankBoostFitted) (terminal_regions : List ℕ) (y_test : List ℝ)
    (b : ℕ) : ℝ :=
  bincountFn terminal_regions
    ((List.range y_test.length).map (fun i =>
      rankWPlus st y_test i * (y_test.map Real.exp).getD i 0)) b

/-- Per-leaf sum `numpy.bincount(terminal_regions, weights=w_minus * neg_exponent)[b]`. -/
def rankWMinusLeaf (st : RankBoostFitted) (terminal_regions : List ℕ) (y_test : List ℝ)
    (b : ℕ) : ℝ :=
  bincountFn terminal_regions
    ((List.range y_test.length).map (fun i =>
      rankWMinus st y_test i * (y_test.map (fun p => Real.exp (-p))).getD i 0)) b

/-- Embeds `RankBoostLossFunction._prepare_new_leaves_values`: the closed-form step
`0.5 * log(w_minus_leaf / w_plus_leaf)` with the constructor's regularization `0.1`
added to both per-leaf weight sums. -/
def rankStep (st : RankBoostFitted) (terminal_regions : List ℕ) (y_test : List ℝ)
    (b : ℕ) : ℝ :=
  0.5 * Real.log ((rankWMinusLeaf st terminal_regions y_test b + 0.1)
      / (rankWPlusLeaf st terminal_regions y_test b + 0.1))

/-- Iteration of `RankBoostLossFunction.prepare_new_leaves_values`: starting from zero
leaf values, each pass computes the step at `y_pred + leaves_values[terminal_regions]`
and sets `leaves_values = 0.5 * new_leaves_values + leaves_values`. -/
def rankNewLeavesAux (st : RankBoostFitted) (terminal_regions : List ℕ)
    (y_pred : List ℝ) : ℕ → ℕ → ℝ
  | 0 => fun _ => 0
  | (m + 1) => fun b =>
    0.5 * rankStep st terminal_regions
        ((y_pred.zip terminal_regions).map
          (fun p => p.1 + rankNewLeavesAux st terminal_regions y_pred m p.2)) b
      + rankNewLeavesAux st terminal_regions y_pred m b

/-- Embeds `RankBoostLossFunction.prepare_new_leaves_values` with
`update_iterations = iters`. -/
def rankPrepareNewLeavesValues (st : RankBoostFitted) (terminal_regions : List ℕ)
    (y_pred : List ℝ) (iters : ℕ) : ℕ → ℝ :=
  rankNewLeavesAux st terminal_regions y_pred iters

/-- Follows the claim's words, not the source: each pass would replace the estimate by
the arithmetic mean (50/50 blend) of that step's closed-form result and the previous
estimate. -/
def rankNewLeavesBlendAux (st : RankBoostFitted) (terminal_regions : List ℕ)
    (y_pred : List ℝ) : ℕ → ℕ → ℝ
  | 0 => fun _ => 0
  | (m + 1) => fun b =>
    0.5 * (rankStep st terminal_regions
        ((y_pred.zip terminal_regions).map
          (fun p => p.1 + rankNewLeavesBlendAux st terminal_regions y_pred m p.2)) b
      + rankNewLeavesBlendAux st terminal_regions y_pred m b)

/-- The claim's reading of `prepare_new_leaves_values` (50/50 blend at every pass). -/
def rankPrepareNewLeavesValuesBlend (st : RankBoostFitted) (terminal_regions : List ℕ)
    (y_pred : List ℝ) (iters : ℕ) : ℕ → ℝ :=
  rankNewLeavesBlendAux st terminal_regions y_pred iters

/-- Embeds `RankBoostLossFunction.__call__`.  The Python statement
`y_pred -= y_pred.mean()` subtracts the mean from the caller's array in place, so the
final contents of `y_pred` are returned alongside the loss value. -/
def rankCall (st : RankBoostFitted) (y_pred : List ℝ) : ℝ × List ℝ :=
  let yp := y_pred.map (fun p => p - npMean y_pred)
  let posExp := yp.map Real.exp
  let negExp := yp.map (fun p => Real.exp (-p))
  ((st.lookups.map (fun L =>
      ∑ j in Finset.range L.2.1,
        bincountFn L.1 posExp j * matVec L.2.1 L.2.2 (bincountFn L.1 negExp) j)).sum,
   yp)

/-- Embeds `RankBoostLossFunction.negative_gradient`, again returning the mutated
contents of the caller's `y_pred` array as the second component. -/
def rankNegativeGradient (st : RankBoostFitted) (y_pred : List ℝ) : List ℝ × List ℝ :=
  let yp := y_pred.map (fun p => p - npMean y_pred)
  let posExp := yp.map Real.exp
  let negExp := yp.map (fun p => Real.exp (-p))
  ((List.range yp.length).map (fun i =>
      -((st.lookups.map (fun L =>
          posExp.getD i 0 * matVec L.2.1 L.2.2 (bincountFn L.1 negExp) (L.1.getD i 0)
          - negExp.getD i 0 * matVec L.2.1 (fun a c => L.2.2 c a) (bincountFn L.1 posExp)
              (L.1.getD i 0))).sum)),
   yp)

/-- Embeds `RankBoostLossFunction.hessian`, again returning the mutated contents of the
caller's `y_pred` array as the second component. -/
def rankHessian (st : RankBoostFitted) (y_pred : List ℝ) : List ℝ × List ℝ :=
  let yp := y_pred.map (fun p => p - npMean y_pred)
  let posExp := yp.map Real.exp
  let negExp := yp.map (fun p => Real.exp (-p))
  ((List.range yp.length).map (fun i =>
      (st.lookups.map (fun L =>
          posExp.getD i 0 * matVec L.2.1 L.2.2 (bincountFn L.1 negExp) (L.1.getD i 0)
          + negExp.getD i 0 * matVec L.2.1 (fun a c => L.2.2 c a) (bincountFn L.1 posExp)
              (L.1.getD i 0))).sum),
   yp)

/-! ## `AbstractFlatnessLossFunction` (losses.py lines 523-628) -/

open scoped Classical

/-- Embeds `exp_margin`: `exp(clip(margin, -1e5, 2))`. -/
def expMargin (margin : ℝ) : ℝ := Real.exp (min (max margin (-100000)) 2)

/-- Fitted state of a flatness loss.  The abstract method `compute_groups_indices` of
the Bin/Knn subclasses is abstracted as `groupsOf`, the per-uniform-label list of groups
(each group a list of event indices); constructor hyperparameters are included. -/
structure FlatnessFitted where
  uniformLabels : List ℕ
  y : List ℕ
  sampleWeight : List ℝ
  groupsOf : ℕ → List (List ℕ)
  power : ℝ
  adaCoefficient : ℝ
  allowWrongSigns : Bool

/-- Embeds `_compute_positions`: the weighted empirical CDF position
`(sum of weights sorted strictly before + half own weight) / total weight` of each
entry.  Ties in the predictions are broken by original position (numpy's argsort
determinized as a stable sort). -/
def computePositions (pred w : List ℝ) : List ℝ :=
  (List.range pred.length).map (fun i =>
    ((∑ j in Finset.range pred.length,
        if pred.getD j 0 < pred.getD i 0 ∨ (pred.getD j 0 = pred.getD i 0 ∧ j < i)
        then w.getD j 0 else 0)
      + 0.5 * w.getD i 0) / w.sum)

/-- Value `occurences[i]` after the fit loop (`occurences[group] += 1` adds one per
group of each uniform label that lists event `i`). -/
def occurrencesAt (st : FlatnessFitted) (i : ℕ) : ℕ :=
  (st.uniformLabels.map (fun l => ((st.groupsOf l).filter (fun g => g.contains i)).length)).sum

/-- Entry `i` of the boolean array
`out_of_bins = (occurences == 0) & numpy.in1d(y, uniform_label)`. -/
def outOfBins (st : FlatnessFitted) (i : ℕ) : Bool :=
  occurrencesAt st i == 0 && st.uniformLabels.contains (st.y.getD i 0)

/-- Embeds the warning condition of `AbstractFlatnessLossFunction.fit`:
`numpy.mean(out_of_bins) > 0.01`, the mean of the 0/1 array over all events. -/
def fitWarns (st : FlatnessFitted) : Prop :=
  npMean ((List.range st.y.length).map (fun i => if outOfBins st i then (1 : ℝ) else 0))
    > 0.01

/-- Number of uniform-class events assigned to no flatness group. -/
def outOfBinsCount (st : FlatnessFitted) : ℕ :=
  ((List.range st.y.length).filter (fun i => outOfBins st i)).length

/-- Number of events whose label is one of the uniform labels. -/
def uniformEventsCount (st : FlatnessFitted) : ℕ :=
  ((List.range st.y.length).filter
    (fun i => st.uniformLabels.contains (st.y.getD i 0))).length

/-- Embeds `divided_weight = sample_weight / numpy.maximum(occurences, 1)` at event
`i`. -/
def dividedWeightAt (st : FlatnessFitted) (i : ℕ) : ℝ :=
  st.sampleWeight.getD i 0 / ((max (occurrencesAt st i) 1 : ℕ) : ℝ)

/-- Indices of the events with label `l`, in order (the mask `y == label`). -/
def labelIndices (y : List ℕ) (l : ℕ) : List ℕ :=
  (List.range y.length).filter (fun i => y.getD i 0 == l)

/-- Entry of the scattered `global_positions` array for event `i` of label `l`:
`_compute_positions(y_pred[label_mask], sample_weight[label_mask])` placed back at the
label positions. -/
def globalPositionAt (st : FlatnessFitted) (y_pred : List ℝ) (l i : ℕ) : ℝ :=
  (computePositions ((labelIndices st.y l).map (fun j => y_pred.getD j 0))
      ((labelIndices st.y l).map (fun j => st.sampleWeight.getD j 0))).getD
    ((labelIndices st.y l).indexOf i) 0

/-- Local positions within one group:
`_compute_positions(y_pred[indices_in_bin], sample_weight[indices_in_bin])`. -/
def localPositions (st : FlatnessFitted) (y_pred : List ℝ) (g : List ℕ) : List ℝ :=
  computePositions (g.map (fun j => y_pred.getD j 0))
    (g.map (fun j => st.sampleWeight.getD j 0))

/-- One group's `bin_gradient` value:
`power * sign(local - global) * abs(local - global) ** (power - 1)`. -/
def binGradient (power localPos globalPos : ℝ) : ℝ :=
  power * Real.sign (localPos - globalPos) * |localPos - globalPos| ^ (power - 1)

/-- The flatness part of `negative_gradient` at event `i` (before multiplication by
`divided_weight` and addition of the ada term): the accumulated `bin_gradient`
contributions of every group of every uniform label that contains event `i`. -/
def flatGradAt (st : FlatnessFitted) (y_pred : List ℝ) (i : ℕ) : ℝ :=
  (st.uniformLabels.map (fun l =>
    ((st.groupsOf l).map (fun g =>
      ∑ j in Finset.range g.length,
        if g.getD j 0 = i then
          binGradient st.power ((localPositions st y_pred g).getD j 0)
            (globalPositionAt st y_pred l (g.getD j 0))
        else 0)).sum)).sum

/-- The signed label `y_signed = 2 y - 1` of event `i`. -/
def ySignedAt (y : List ℕ) (i : ℕ) : ℝ := 2 * (y.getD i 0 : ℝ) - 1

/-- Embeds `AbstractFlatnessLossFunction.negative_gradient` at event `i`:
flatness term times divided weight, plus the ada term
`ada_coefficient * y_signed * w * exp_margin(-y_signed * y_pred)`; when
`allow_wrong_signs` is false the result is clipped to the class-consistent sign
(`y_signed * clip(y_signed * g, 0, 1e5)`). -/
def flatnessNegativeGradient (st : FlatnessFitted) (y_pred : List ℝ) (i : ℕ) : ℝ :=
  let base := flatGradAt st y_pred i * dividedWeightAt st i
  let withAda := base + st.adaCoefficient * ySignedAt st.y i * st.sampleWeight.getD i 0
      * expMargin (-(ySignedAt st.y i) * y_pred.getD i 0)
  if st.allowWrongSigns then withAda
  else ySignedAt st.y i * min (max (ySignedAt st.y i * withAda) 0) 100000

/-- Concrete fitted flatness loss for the C6 witness: two events, both of uniform label
0, one group holding the whole label. -/
def flatnessExample : FlatnessFitted :=
  { uniformLabels := [0], y := [0, 0], sampleWeight := [1, 1],
    groupsOf := fun l => if l = 0 then [[0, 1]] else [],
    power := 2, adaCoefficient := 1, allowWrongSigns := true }

/-- Concrete fitted flatness loss for the C7 counterexample: 100 events, two of uniform
label 0 (events 0 and 1), the rest of label 1; the single group covers only event 0, so
event 1 is a groupless uniform-class event. -/
def flatnessWarnExample : FlatnessFitted :=
  { uniformLabels := [0], y := 0 :: 0 :: List.replicate 98 1,
    sampleWeight := List.replicate 100 1,
    groupsOf := fun l => if l = 0 then [[0]] else [],
    power := 2, adaCoefficient := 1, allowWrongSigns := true }

/-! ## `ReweightLossFunction` (losses.py lines 693-745) -/

/-- Embeds `numpy.sign` on a real value. -/
def npSign (x : ℝ) : ℝ := if 0 < x then 1 else if x < 0 then -1 else 0

/-- Fitted state of `ReweightLossFunction`. -/
structure ReweightFitted where
  y : List ℕ
  sampleWeight : List ℝ
  signs : List ℝ
  regularization : ℝ

/-- Embeds `ReweightLossFunction.fit`.  The assert requires 0/1 labels.  When
`sample_weight` is None the code first sets `self.sample_weight` to ones, but line 715
then evaluates `numpy.sign(sample_weight)` on the raw `None` argument, which raises a
TypeError at runtime; that raise is modelled as `Except.error`. -/
def reweightFit (regularization : ℝ) (y : List ℕ) (sample_weight : Option (List ℝ)) :
    Except Unit ReweightFitted :=
  if ∀ l ∈ y, l = 0 ∨ l = 1 then
    match sample_weight with
    | none => Except.error ()
    | some w =>
      Except.ok
        { y := y
          sampleWeight := w
          signs := (List.range y.length).map
            (fun i => (2 * (y.getD i 0 : ℝ) - 1) * npSign (w.getD i 0))
          regularization := regularization }
  else Except.error ()

/-- Modelled from the spec: `check_sample_weight(self.y, weights, normalize=True,
normalize_by_class=True)` lives in `hep_ml.commonutils`, which is not under `src/`; per
the spec (section 4.6) it renormalizes the recomputed weights so the two classes' weight
sums match, embedded as dividing each class's weights by that class's total weight (each
class then sums to 1). -/
def normalizeByClass (y : List ℕ) (w : List ℝ) : List ℝ :=
  let s0 := (((y.zip w).filter (fun p => p.1 == 0)).map Prod.snd).sum
  let s1 := (((y.zip w).filter (fun p => p.1 == 1)).map Prod.snd).sum
  (y.zip w).map (fun p => if p.1 == 0 then p.2 / s0 else p.2 / s1)

/-- Embeds `ReweightLossFunction._compute_weights`:
`self.sample_weight * numpy.exp(self.y * y_pred)`, renormalized per class. -/
def reweightComputeWeights (st : ReweightFitted) (y_pred : List ℝ) : List ℝ :=
  normalizeByClass st.y ((List.range st.y.length).map (fun i =>
    st.sampleWeight.getD i 0 * Real.exp ((st.y.getD i 0 : ℝ) * y_pred.getD i 0)))

/-- The per-leaf value formula of `ReweightLossFunction.prepare_new_leaves_values`:
`log(clip(w_target, 0) + regularization) - log(clip(w_original, 0) + regularization)`. -/
def reweightLeafValue (regularization t o : ℝ) : ℝ :=
  Real.log (max t 0 + regularization) - Real.log (max o 0 + regularization)

/-- Per-leaf target-class weight sum
`numpy.bincount(terminal_regions, weights=mask_target * weights)[b]`, with
`mask_target = 1 - y`. -/
def reweightTargetSum (st : ReweightFitted) (tr : List ℕ) (y_pred : List ℝ)
    (b : ℕ) : ℝ :=
  bincountFn tr ((List.range st.y.length).map (fun i =>
    (1 - (st.y.getD i 0 : ℝ)) * (reweightComputeWeights st y_pred).getD i 0)) b

/-- Per-leaf original-class weight sum
`numpy.bincount(terminal_regions, weights=mask_original * weights)[b]`, with
`mask_original = y`. -/
def reweightOriginalSum (st : ReweightFitted) (tr : List ℕ) (y_pred : List ℝ)
    (b : ℕ) : ℝ :=
  bincountFn tr ((List.range st.y.length).map (fun i =>
    (st.y.getD i 0 : ℝ) * (reweightComputeWeights st y_pred).getD i 0)) b

/-- Embeds `ReweightLossFunction.prepare_new_leaves_values`: per leaf,
`log(w_target.clip(0) + reg) - log(w_original.clip(0) + reg)`. -/
def reweightPrepareNewLeavesValues (st : ReweightFitted) (tr : List ℕ)
    (y_pred : List ℝ) : List ℝ :=
  (List.range (bincountLen tr)).map (fun b =>
    reweightLeafValue st.regularization (reweightTargetSum st tr y_pred b)
      (reweightOriginalSum st tr y_pred b))

/-- Concrete fitted ReweightLossFunction for the C4 witness (its `signs` entries are the
ones `fit` computes for these labels and weights). -/
def reweightExample : ReweightFitted :=
  { y := [0, 1], sampleWeight := [1, 1], signs := [-1, 1], regularization := 5 }

/-! ## `GBReweighter` (experiments/reweight.py lines 121-172) -/

/-- Modelled from the spec: `check_sample_weight(data, sample_weight, normalize=True)`
of `hep_ml.commonutils` (not under `src/`), as used by `ReweighterMixin.normalize_input`:
per the spec (section 6) weights default to uniform, are validated non-negative, and are
renormalized to mean 1. -/
def checkSampleWeightNormalize (n : ℕ) (w : Option (List ℝ)) : Except Unit (List ℝ) :=
  match w with
  | none => Except.ok (List.replicate n 1)
  | some ws =>
    if ws.length = n ∧ ∀ x ∈ ws, 0 ≤ x then
      Except.ok (ws.map (fun x => x / npMean ws))
    else Except.error ()

/-- Embeds `GBReweighter.predict_weights`:
`numpy.exp(self.gb.decision_function(original)) * original_weight` after input
normalization.  The external boosting engine (`hep_ml.gradientboosting`, not under
`src/`) is abstracted as the fitted per-event score vector `score` returned by its
`decision_function`. -/
def gbPredictWeights (score : List ℝ) (n : ℕ) (original_weight : Option (List ℝ)) :
    Except Unit (List ℝ) :=
  match checkSampleWeightNormalize n original_weight with
  | Except.error e => Except.error e
  | Except.ok w => Except.ok (List.zipWith (fun s x => Real.exp s * x) score w)

/-! ### helper lemmas -/

theorem getD_eq_getElem {α : Type} (l : List α) (d : α) (i : ℕ) (h : i < l.length) :
    l.getD i d = l[i] := by
  simp [List.getD, List.getElem?_eq_getElem h]

theorem npBincount_getD (idx : List ℕ) (w : List ℝ) (minlength b : ℕ)
    (hb : b < minlength) :
    (npBincount idx w minlength).getD b 0 = bincountFn idx w b := by
  have hlen : b < (npBincount idx w minlength).length := by
    simp only [npBincount, List.length_map, List.length_range]
    exact lt_of_lt_of_le hb (le_max_left _ _)
  rw [getD_eq_getElem _ _ _ hlen]
  simp [npBincount]

theorem bincountFn_all_zero (tr : List ℕ) (vals : List ℝ)
    (h : ∀ t ∈ tr, t = 0) (hlen : tr.length = vals.length) :
    bincountFn tr vals 0 = vals.sum := by
  induction tr generalizing vals with
  | nil =>
    cases vals with
    | nil => simp [bincountFn]
    | cons v vs => simp at hlen
  | cons t ts ih =>
    cases vals with
    | nil => simp at hlen
    | cons v vs =>
      have ht : t = 0 := h t (by simp)
      have hts : ∀ x ∈ ts, x = 0 := fun x hx => h x (by simp [hx])
      have hlen2 : ts.length = vs.length := by simpa using hlen
      simp only [bincountFn, List.zip_cons_cons, List.filter_cons, ht] at *
      simp only [List.sum_cons, List.map_cons, beq_self_eq_true, if_true]
      have := ih vs hts hlen2
      simp only [bincountFn] at this
      simp [this]

theorem bincountLen_all_zero (tr : List ℕ) (h : ∀ t ∈ tr, t = 0) :
    bincountLen tr ≤ 1 := by
  induction tr with
  | nil => simp [bincountLen]
  | cons t ts ih =>
    have ht : t = 0 := h t (by simp)
    have hts := ih (fun x hx => h x (by simp [hx]))
    simp only [bincountLen, List.foldr_cons, ht] at *
    omega

/-! ### C1 -/

/-- C1: for every fitted HessianLoss-derived loss, `prepare_new_leaves_values` returns,
for each leaf, the sum of the residuals of the events in that leaf divided by (the sum of
the hessian values of the events in that leaf plus `regularization_`), where
`regularization_ = regularization * mean(sample_weight)` is fixed at fit time; with a
single leaf containing all events and `regularization = 0` the leaf value is exactly
`(Σ residual) / (Σ hessian)`. -/
theorem hessian_loss_leaf_update
    (regularization : ℝ) (sample_weight y_pred residual : List ℝ)
    (hessian : List ℝ → List ℝ) (terminal_regions : List ℕ) (nLeaves b : ℕ)
    (hb : b < nLeaves) :
    ((hessianPrepareNewLeavesValues (hessianFitRegularization regularization sample_weight)
        nLeaves terminal_regions residual (hessian y_pred)).getD b 0
      = bincountFn terminal_regions residual b
        / (bincountFn terminal_regions (hessian y_pred) b
            + regularization * npMean sample_weight))
    ∧ ((∀ t ∈ terminal_regions, t = 0) → regularization = 0 → nLeaves = 1
        → terminal_regions.length = residual.length
        → terminal_regions.length = (hessian y_pred).length
        → hessianPrepareNewLeavesValues (hessianFitRegularization regularization sample_weight)
            nLeaves terminal_regions residual (hessian y_pred)
          = [residual.sum / (hessian y_pred).sum]) := by
  constructor
  · have hlen : b < (npBincount terminal_regions residual nLeaves).length := by
      simp only [npBincount, List.length_map, List.length_range]
      exact lt_of_lt_of_le hb (le_max_left _ _)
    have hlen2 : b < (npBincount terminal_regions (hessian y_pred) nLeaves).length := by
      simp only [npBincount, List.length_map, List.length_range]
      exact lt_of_lt_of_le hb (le_max_left _ _)
    have hzlen : b < (hessianPrepareNewLeavesValues
        (hessianFitRegularization regularization sample_weight)
        nLeaves terminal_regions residual (hessian y_pred)).length := by
      simp only [hessianPrepareNewLeavesValues, List.length_zipWith, npBincount,
        List.length_map, List.length_range, lt_min_iff]
      exact ⟨lt_of_lt_of_le hb (le_max_left _ _), lt_of_lt_of_le hb (le_max_left _ _)⟩
    rw [getD_eq_getElem _ _ _ hzlen]
    simp only [hessianPrepareNewLeavesValues, List.getElem_zipWith]
    rw [← getD_eq_getElem _ 0 _ hlen, ← getD_eq_getElem _ 0 _ hlen2,
      npBincount_getD _ _ _ _ hb, npBincount_getD _ _ _ _ hb]
    simp [hessianFitRegularization]
  · intro hall hreg hn hlr hlh
    have h1 : bincountLen terminal_regions ≤ 1 := bincountLen_all_zero _ hall
    have hmax : max nLeaves (bincountLen terminal_regions) = 1 := by omega
    have hr1 : List.range 1 = [0] := rfl
    simp only [hessianPrepareNewLeavesValues, npBincount, hmax, hr1,
      List.map_cons, List.map_nil, List.zipWith_cons_cons, List.zipWith_nil_right]
    rw [bincountFn_all_zero _ _ hall hlr, bincountFn_all_zero _ _ hall hlh]
    simp [hessianFitRegularization, hreg]

/-- Witness for C1 at a concrete input: two events with unit weights and hessians in a
single leaf, regularization 0. -/
theorem hessian_loss_leaf_update_witness :
    ((hessianPrepareNewLeavesValues (hessianFitRegularization 0 [1, 1])
        1 [0, 0] [1, 2] ((fun _ => [1, 1]) [0, 0])).getD 0 0
      = bincountFn [0, 0] [1, 2] 0
        / (bincountFn [0, 0] ((fun _ => [1, 1]) [0, 0]) 0 + 0 * npMean [1, 1]))
    ∧ ((∀ t ∈ ([0, 0] : List ℕ), t = 0) → (0 : ℝ) = 0 → 1 = 1
        → ([0, 0] : List ℕ).length = ([1, 2] : List ℝ).length
        → ([0, 0] : List ℕ).length = ((fun _ => [1, 1]) ([0, 0] : List ℝ) : List ℝ).length
        → hessianPrepareNewLeavesValues (hessianFitRegularization 0 [1, 1])
            1 [0, 0] [1, 2] ((fun _ => [1, 1]) [0, 0])
          = [([1, 2] : List ℝ).sum / ((fun _ => [1, 1]) ([0, 0] : List ℝ) : List ℝ).sum]) :=
  hessian_loss_leaf_update 0 [1, 1] [0, 0] [1, 2] (fun _ => [1, 1]) [0, 0] 1 0 (by norm_num)

/-! ### C2 -/

/-- C2: for every fitted HessianLoss-derived loss and prediction vector,
`prepare_tree_params` returns the pair
`(negative_gradient(y_pred) / (hessian(y_pred) + 0.01), hessian(y_pred) + 0.01)`. -/
theorem hessian_prepare_tree_params_newton
    (negative_gradient hessian : List ℝ → List ℝ) (y_pred : List ℝ) (i : ℕ)
    (hi : i < (negative_gradient y_pred).length)
    (hlen : (negative_gradient y_pred).length = (hessian y_pred).length) :
    ((hessianPrepareTreeParams negative_gradient hessian y_pred).1.getD i 0
        = (negative_gradient y_pred).getD i 0 / ((hessian y_pred).getD i 0 + 0.01))
    ∧ ((hessianPrepareTreeParams negative_gradient hessian y_pred).2.getD i 0
        = (hessian y_pred).getD i 0 + 0.01) := by
  have hih : i < (hessian y_pred).length := hlen ▸ hi
  have hmlen : i < ((hessian y_pred).map (fun h => h + 0.01)).length := by
    simpa using hih
  have hzlen : i < ((negative_gradient y_pred).zipWith (fun g h => g / h)
      ((hessian y_pred).map (fun h => h + 0.01))).length := by
    simp only [List.length_zipWith, List.length_map, lt_min_iff]
    exact ⟨hi, hih⟩
  constructor
  · simp only [hessianPrepareTreeParams]
    rw [getD_eq_getElem _ _ _ hzlen]
    simp only [List.getElem_zipWith, List.getElem_map]
    rw [← getD_eq_getElem (negative_gradient y_pred) 0 _ hi,
      ← getD_eq_getElem (hessian y_pred) 0 _ hih]
  · simp only [hessianPrepareTreeParams]
    rw [getD_eq_getElem _ _ _ hmlen]
    simp only [List.getElem_map]
    rw [← getD_eq_getElem (hessian y_pred) 0 _ hih]

/-! ### RankBoost helper lemmas -/

theorem rankNewLeavesAux_zero (st : RankBoostFitted) (tr : List ℕ) (yp : List ℝ)
    (b : ℕ) : rankNewLeavesAux st tr yp 0 b = 0 := rfl

theorem rankNewLeavesAux_succ (st : RankBoostFitted) (tr : List ℕ) (yp : List ℝ)
    (m b : ℕ) :
    rankNewLeavesAux st tr yp (m + 1) b
      = 0.5 * rankStep st tr
          ((yp.zip tr).map (fun p => p.1 + rankNewLeavesAux st tr yp m p.2)) b
        + rankNewLeavesAux st tr yp m b := rfl

theorem rankNewLeavesBlendAux_zero (st : RankBoostFitted) (tr : List ℕ) (yp : List ℝ)
    (b : ℕ) : rankNewLeavesBlendAux st tr yp 0 b = 0 := rfl

theorem rankNewLeavesBlendAux_succ (st : RankBoostFitted) (tr : List ℕ) (yp : List ℝ)
    (m b : ℕ) :
    rankNewLeavesBlendAux st tr yp (m + 1) b
      = 0.5 * (rankStep st tr
          ((yp.zip tr).map (fun p => p.1 + rankNewLeavesBlendAux st tr yp m p.2)) b
        + rankNewLeavesBlendAux st tr yp m b) := rfl

theorem rank_aux_one_eq (st : RankBoostFitted) (tr : List ℕ) (yp : List ℝ) :
    rankNewLeavesAux st tr yp 1 = rankNewLeavesBlendAux st tr yp 1 := by
  funext b
  rw [show (1 : ℕ) = 0 + 1 from rfl, rankNewLeavesAux_succ, rankNewLeavesBlendAux_succ]
  simp only [rankNewLeavesAux_zero, rankNewLeavesBlendAux_zero]
  ring

theorem rank_aux_two_diff (st : RankBoostFitted) (tr : List ℕ) (yp : List ℝ) (b : ℕ) :
    rankNewLeavesAux st tr yp 2 b
      = rankNewLeavesBlendAux st tr yp 2 b + 0.5 * rankNewLeavesAux st tr yp 1 b := by
  have h1 := rank_aux_one_eq st tr yp
  rw [show (2 : ℕ) = 1 + 1 from rfl, rankNewLeavesAux_succ, rankNewLeavesBlendAux_succ,
    h1]
  ring

theorem rank_instance_first_step :
    rankNewLeavesAux (rankBoostFit [0, 0] [0, 1] true) [0, 1] [0, 0] 1 0
      = 0.25 * Real.log (0.1 / (1 / Real.sqrt 3 + 1 / Real.sqrt 3 + 0.1)) := by
  have r2 : List.range 2 = [0, 1] := rfl
  have hU : npUnique [0, 1] = [0, 1] := by decide
  have hQ : npUnique [0, 0] = [0] := by decide
  have hI01 : npUniqueInv [0, 1] = [0, 1] := by decide
  have hI00 : npUniqueInv [0, 0] = [0, 0] := by decide
  have e1 : rankNewLeavesAux (rankBoostFit [0, 0] [0, 1] true) [0, 1] [0, 0] 1 0
      = 0.5 * rankStep (rankBoostFit [0, 0] [0, 1] true) [0, 1] [0, 0] 0 := by
    rw [show (1 : ℕ) = 0 + 1 from rfl, rankNewLeavesAux_succ]
    simp [rankNewLeavesAux_zero]
  have hwm : rankWMinusLeaf (rankBoostFit [0, 0] [0, 1] true) [0, 1] [0, 0] 0 = 0 := by
    simp only [rankWMinusLeaf, rankWMinus, rankBoostFit, hU, hQ, hI01, hI00, r2]
    norm_num [r2, matVec, bincountFn, rankPenaltiesFn, penaltyVal, Finset.sum_range_succ,
      Real.exp_zero, List.getD]
  have hwp : rankWPlusLeaf (rankBoostFit [0, 0] [0, 1] true) [0, 1] [0, 0] 0
      = 1 / Real.sqrt 3 + 1 / Real.sqrt 3 := by
    simp only [rankWPlusLeaf, rankWPlus, rankBoostFit, hU, hQ, hI01, hI00, r2]
    norm_num [r2, matVec, bincountFn, rankPenaltiesFn, penaltyVal, Finset.sum_range_succ,
      Real.exp_zero, List.getD]
  rw [e1, rankStep, hwm, hwp]
  norm_num
  ring

/-! ### C3 -/

/-- C3 counterexample: a concrete fitted RankBoostLossFunction (two events, one query,
labels [0, 1], square penalty), terminal regions [0, 1], zero predictions and
`update_iterations = 2`: the code's leaf value at leaf 0 differs from the claimed
50/50-blend recurrence. -/
theorem rankboost_blend_counterexample :
    rankPrepareNewLeavesValues (rankBoostFit [0, 0] [0, 1] true) [0, 1] [0, 0] 2 0
      ≠ rankPrepareNewLeavesValuesBlend (rankBoostFit [0, 0] [0, 1] true)
          [0, 1] [0, 0] 2 0 := by
  have hd := rank_aux_two_diff (rankBoostFit [0, 0] [0, 1] true) [0, 1] [0, 0] 0
  have hs : (0 : ℝ) < Real.sqrt 3 := Real.sqrt_pos.mpr (by norm_num)
  have h3 : (0 : ℝ) < 1 / Real.sqrt 3 := by positivity
  have harg : (0 : ℝ) < 0.1 / (1 / Real.sqrt 3 + 1 / Real.sqrt 3 + 0.1) := by positivity
  have hlt : 0.1 / (1 / Real.sqrt 3 + 1 / Real.sqrt 3 + 0.1) < 1 := by
    rw [div_lt_one (by positivity)]
    linarith
  have hlog : Real.log (0.1 / (1 / Real.sqrt 3 + 1 / Real.sqrt 3 + 0.1)) < 0 :=
    Real.log_neg harg hlt
  have hne : rankNewLeavesAux (rankBoostFit [0, 0] [0, 1] true) [0, 1] [0, 0] 1 0 ≠ 0 := by
    rw [rank_instance_first_step]
    nlinarith
  simp only [rankPrepareNewLeavesValues, rankPrepareNewLeavesValuesBlend]
  intro h
  rw [h] at hd
  exact hne (by linarith)

/-- C3 amended: `prepare_new_leaves_values` starts from all-zero leaf values and performs
`update_iterations` steps; after each step the running estimate is the previous estimate
plus one half of that step's closed-form result
`0.5 * log((w_minus_leaf + 0.1) / (w_plus_leaf + 0.1))` evaluated at the shifted
predictions `y_pred + leaves_values[terminal_regions]` — not the arithmetic mean of the
step's result and the previous estimate. -/
theorem rankboost_update_adds_half_step (st : RankBoostFitted) (tr : List ℕ)
    (y_pred : List ℝ) (n b : ℕ) :
    rankPrepareNewLeavesValues st tr y_pred 0 b = 0
    ∧ rankPrepareNewLeavesValues st tr y_pred (n + 1) b
        = rankPrepareNewLeavesValues st tr y_pred n b
          + 0.5 * rankStep st tr
              ((y_pred.zip tr).map (fun p =>
                p.1 + rankPrepareNewLeavesValues st tr y_pred n p.2)) b
    ∧ (∀ y_test : List ℝ,
        rankStep st tr y_test b
          = 0.5 * Real.log ((rankWMinusLeaf st tr y_test b + 0.1)
              / (rankWPlusLeaf st tr y_test b + 0.1))) := by
  refine ⟨rfl, ?_, fun y_test => rfl⟩
  simp only [rankPrepareNewLeavesValues, rankNewLeavesAux_succ]
  ring

/-! ### C8 -/

theorem sum_map_sub_const (l : List ℝ) (m : ℝ) :
    (l.map (fun x => x - m)).sum = l.sum - l.length * m := by
  induction l with
  | nil => simp
  | cons a t ih =>
    simp only [List.map_cons, List.sum_cons, List.length_cons, ih]
    push_cast
    ring

theorem npMean_center (l : List ℝ) (h : l ≠ []) :
    npMean (l.map (fun x => x - npMean l)) = 0 := by
  have hn : (l.length : ℝ) ≠ 0 := Nat.cast_ne_zero.mpr (List.length_pos.mpr h).ne'
  simp only [npMean, sum_map_sub_const, List.length_map]
  rw [mul_div_cancel₀ _ hn]
  simp

/-- C8: for every fitted RankBoostLossFunction and every prediction array, `__call__`,
`negative_gradient` and `hessian` each mutate the caller's `y_pred` array in place by
subtracting its mean, so after the call the input array is mean-centered rather than
unchanged. -/
theorem rankboost_mutates_y_pred (st : RankBoostFitted) (y_pred : List ℝ)
    (h : y_pred ≠ []) :
    (rankCall st y_pred).2 = y_pred.map (fun p => p - npMean y_pred)
    ∧ (rankNegativeGradient st y_pred).2 = y_pred.map (fun p => p - npMean y_pred)
    ∧ (rankHessian st y_pred).2 = y_pred.map (fun p => p - npMean y_pred)
    ∧ npMean (rankCall st y_pred).2 = 0 := by
  exact ⟨rfl, rfl, rfl, npMean_center y_pred h⟩

/-- Witness for C8 at a concrete input: the fitted loss on one event and the prediction
array [1, 3]. -/
theorem rankboost_mutates_y_pred_witness :
    ((rankCall (rankBoostFit [0] [0] true) [1, 3]).2
        = ([1, 3] : List ℝ).map (fun p => p - npMean [1, 3])
    ∧ (rankNegativeGradient (rankBoostFit [0] [0] true) [1, 3]).2
        = ([1, 3] : List ℝ).map (fun p => p - npMean [1, 3])
    ∧ (rankHessian (rankBoostFit [0] [0] true) [1, 3]).2
        = ([1, 3] : List ℝ).map (fun p => p - npMean [1, 3])
    ∧ npMean (rankCall (rankBoostFit [0] [0] true) [1, 3]).2 = 0) :=
  rankboost_mutates_y_pred (rankBoostFit [0] [0] true) [1, 3] (by simp)

/-! ### C9 -/

theorem writePenalties_ok (k : ℕ) (sq : Bool) (ps : List (ℕ × ℕ)) :
    ∀ M, exceptOk (writePenalties k sq ps M) = true
      ↔ ∀ p ∈ ps, p.1 < p.2 → p.1 < k ∧ p.2 < k := by
  induction ps with
  | nil =>
    intro M
    simp [writePenalties, exceptOk]
  | cons p ps ih =>
    intro M
    by_cases h1 : p.1 < p.2
    · by_cases h2 : p.1 < k ∧ p.2 < k
      · rw [writePenalties, if_pos h1, if_pos h2]
        simp only [ih, List.mem_cons]
        constructor
        · rintro hall q (rfl | hq) hlt
          · exact h2
          · exact hall q hq hlt
        · intro hall q hq hlt
          exact hall q (Or.inr hq) hlt
      · rw [writePenalties, if_pos h1, if_neg h2]
        constructor
        · intro hc
          exact absurd hc (by simp [exceptOk])
        · intro hall
          exact absurd (hall p (List.mem_cons_self p ps) h1) h2
    · rw [writePenalties, if_neg h1]
      simp only [ih, List.mem_cons]
      constructor
      · rintro hall q (rfl | hq) hlt
        · exact absurd hlt h1
        · exact hall q hq hlt
      · intro hall q hq hlt
        exact hall q (Or.inr hq) hlt

theorem writePenalties_value (k : ℕ) (sq : Bool) (ps : List (ℕ × ℕ)) :
    ∀ M, (∀ p ∈ ps, p.1 < p.2 → p.1 < k ∧ p.2 < k) →
      ∃ Mf, writePenalties k sq ps M = Except.ok Mf
        ∧ ∀ a c, Mf a c
            = if (a, c) ∈ ps ∧ a < c then penaltyVal sq a c else M a c := by
  induction ps with
  | nil =>
    intro M _
    exact ⟨M, rfl, by simp⟩
  | cons p ps ih =>
    intro M hall
    by_cases h1 : p.1 < p.2
    · have h2 := hall p (List.mem_cons_self p ps) h1
      obtain ⟨Mf, hw, hval⟩ := ih _ (fun q hq => hall q (List.mem_cons_of_mem p hq))
      refine ⟨Mf, ?_, ?_⟩
      · rw [writePenalties, if_pos h1, if_pos h2, hw]
      · intro a c
        rw [hval a c]
        by_cases hc : (a, c) ∈ ps ∧ a < c
        · rw [if_pos hc, if_pos ⟨List.mem_cons_of_mem p hc.1, hc.2⟩]
        · rw [if_neg hc]
          by_cases hp : a = p.1 ∧ c = p.2
          · have hpc : (a, c) = p := by
              cases hp.1
              cases hp.2
              rfl
            have hac : a < c := by
              rw [hp.1, hp.2]
              exact h1
            rw [if_pos hp, if_pos ⟨hpc ▸ List.mem_cons_self p ps, hac⟩, hp.1, hp.2]
          · rw [if_neg hp, if_neg ?_]
            rintro ⟨hmem, hac⟩
            rcases List.mem_cons.mp hmem with hpe | hin
            · exact hp ⟨congrArg Prod.fst hpe, congrArg Prod.snd hpe⟩
            · exact hc ⟨hin, hac⟩
    · obtain ⟨Mf, hw, hval⟩ := ih M (fun q hq => hall q (List.mem_cons_of_mem p hq))
      refine ⟨Mf, ?_, ?_⟩
      · rw [writePenalties, if_neg h1, hw]
      · intro a c
        rw [hval a c]
        by_cases hc : (a, c) ∈ ps ∧ a < c
        · rw [if_pos hc, if_pos ⟨List.mem_cons_of_mem p hc.1, hc.2⟩]
        · rw [if_neg hc, if_neg ?_]
          rintro ⟨hmem, hac⟩
          rcases List.mem_cons.mp hmem with hpe | hin
          · apply h1
            have e1 : a = p.1 := congrArg Prod.fst hpe
            have e2 : c = p.2 := congrArg Prod.snd hpe
            rw [← e1, ← e2]
            exact hac
          · exact hc ⟨hin, hac⟩

theorem pairs_cond_iff (pr : List ℕ) (k : ℕ) :
    (∀ p ∈ pr.flatMap (fun r1 => pr.map (fun r2 => (r1, r2))),
        p.1 < p.2 → p.1 < k ∧ p.2 < k)
      ↔ ∀ r1 ∈ pr, ∀ r2 ∈ pr, r1 < r2 → r1 < k ∧ r2 < k := by
  constructor
  · intro h r1 h1 r2 h2 hlt
    exact h (r1, r2) (List.mem_flatMap.mpr ⟨r1, h1, List.mem_map.mpr ⟨r2, h2, rfl⟩⟩) hlt
  · intro h p hp hlt
    obtain ⟨x, hx, hmap⟩ := List.mem_flatMap.mp hp
    obtain ⟨z, hz, heq⟩ := List.mem_map.mp hmap
    subst heq
    exact h x hx z hz hlt

/-- Coherence of the two renditions of the write loop: whenever the loop completes, the
matrix it builds is exactly `rankPenaltiesFn`. -/
theorem buildRankPenalties_value (pr : List ℕ) (k : ℕ) (sq : Bool)
    (hok : ∀ r1 ∈ pr, ∀ r2 ∈ pr, r1 < r2 → r1 < k ∧ r2 < k) :
    ∃ Mf, buildRankPenalties pr k sq = Except.ok Mf
      ∧ ∀ a c, Mf a c = rankPenaltiesFn pr sq a c := by
  obtain ⟨Mf, hw, hval⟩ := writePenalties_value k sq
    (pr.flatMap (fun r1 => pr.map (fun r2 => (r1, r2)))) (fun _ _ => 0)
    ((pairs_cond_iff pr k).mpr hok)
  refine ⟨Mf, hw, fun a c => ?_⟩
  rw [hval a c, rankPenaltiesFn]
  by_cases hm : a ∈ pr ∧ c ∈ pr ∧ a < c
  · rw [if_pos ⟨List.mem_flatMap.mpr ⟨a, hm.1, List.mem_map.mpr ⟨c, hm.2.1, rfl⟩⟩,
      hm.2.2⟩, if_pos hm]
  · rw [if_neg ?_, if_neg hm]
    rintro ⟨hmem, hac⟩
    obtain ⟨x, hx, hmap⟩ := List.mem_flatMap.mp hmem
    obtain ⟨z, hz, heq⟩ := List.mem_map.mp hmap
    cases heq
    exact hm ⟨hx, hz, hac⟩

theorem rankBoostFitE_ok (queries y : List ℕ) (sq : Bool) :
    exceptOk (rankBoostFitE queries y sq)
      = exceptOk (buildRankPenalties (npUnique y) (npUnique y).length sq) := by
  rw [rankBoostFitE]
  rcases hb : buildRankPenalties (npUnique y) (npUnique y).length sq with e | M <;>
    simp [exceptOk]

theorem npUnique_pairwise (xs : List ℕ) : (npUnique xs).Pairwise (· < ·) :=
  (List.pairwise_lt_range _).filter _

theorem sorted_all_lt_eq_range (l : List ℕ) (hs : l.Pairwise (· < ·))
    (hlt : ∀ v ∈ l, v < l.length) : l = List.range l.length := by
  have hnd : l.Nodup := hs.imp Nat.ne_of_lt
  have hnd2 : (List.range l.length).Nodup := List.nodup_range _
  have hsub : l.toFinset ⊆ (List.range l.length).toFinset := by
    intro x hx
    rw [List.mem_toFinset] at hx
    rw [List.mem_toFinset, List.mem_range]
    exact hlt x hx
  have hcard : (List.range l.length).toFinset.card ≤ l.toFinset.card := by
    rw [List.toFinset_card_of_nodup hnd, List.toFinset_card_of_nodup hnd2,
      List.length_range]
  have hfin : l.toFinset = (List.range l.length).toFinset :=
    Finset.eq_of_subset_of_card_le hsub hcard
  have hperm := List.perm_of_nodup_nodup_toFinset_eq hnd hnd2 hfin
  haveI : IsAntisymm ℕ (· < ·) := ⟨fun a b h1 h2 => absurd h2 (Nat.lt_asymm h1)⟩
  exact List.eq_of_perm_of_sorted hperm hs (List.pairwise_lt_range _)

theorem all_lt_of_pairs_bounded (l : List ℕ) (hs : l.Pairwise (· < ·))
    (hk : 2 ≤ l.length)
    (hall : ∀ r1 ∈ l, ∀ r2 ∈ l, r1 < r2 → r1 < l.length ∧ r2 < l.length) :
    ∀ v ∈ l, v < l.length := by
  cases l with
  | nil => simp at hk
  | cons a t =>
    cases t with
    | nil => simp at hk
    | cons b t2 =>
      intro v hv
      have hcons := List.pairwise_cons.mp hs
      have hab : a < b := hcons.1 b (List.mem_cons_self b t2)
      rcases List.mem_cons.mp hv with rfl | hv2
      · exact (hall v (List.mem_cons_self _ _) b
          (List.mem_cons_of_mem _ (List.mem_cons_self b t2)) hab).1
      · have hav : a < v := hcons.1 v hv2
        exact (hall a (List.mem_cons_self _ _) v (List.mem_cons_of_mem _ hv2) hav).2

/-- C9 counterexample: labels [5] with a single query: k = 1 and the label value 5 is
≥ k, yet `fit` completes, because with a single distinct rank no pair `r1 < r2` exists
and the out-of-bounds write is never attempted. -/
theorem rankboost_fit_label_five_completes :
    exceptOk (rankBoostFitE [0] [5] true) = true
    ∧ (5 : ℕ) ∈ npUnique [5]
    ∧ (npUnique [5]).length ≤ 5
    ∧ npUnique [5] ≠ List.range (npUnique [5]).length :=
  ⟨by decide, by decide, by decide, by decide⟩

/-- C9 amended: fit completes without an index error iff there is at most one distinct
label value (then no `r1 < r2` pair exists and no write into `rank_penalties` is ever
attempted) or the distinct label values are exactly {0, ..., k-1}; in particular with two
or more distinct labels it raises exactly when some label value is ≥ k. -/
theorem rankboost_fit_completion_characterization (queries y : List ℕ) (sq : Bool) :
    exceptOk (rankBoostFitE queries y sq) = true
      ↔ ((npUnique y).length ≤ 1 ∨ npUnique y = List.range (npUnique y).length) := by
  rw [rankBoostFitE_ok, buildRankPenalties, writePenalties_ok, pairs_cond_iff]
  constructor
  · intro hall
    by_cases hk : (npUnique y).length ≤ 1
    · exact Or.inl hk
    · right
      rw [show List.range (npUnique y).length
          = List.range (npUnique y).length from rfl]
      exact sorted_all_lt_eq_range (npUnique y) (npUnique_pairwise y)
        (all_lt_of_pairs_bounded (npUnique y) (npUnique_pairwise y) (by omega) hall)
  · rintro (hk | heq)
    · intro r1 h1 r2 h2 hlt
      rcases hu : npUnique y with _ | ⟨c, t⟩
      · rw [hu] at h1
        simp at h1
      · have ht : t = [] := by
          rw [hu] at hk
          simpa using hk
        rw [hu, ht] at h1 h2
        simp at h1 h2
        rw [h1, h2] at hlt
        exact absurd hlt (lt_irrefl c)
    · intro r1 h1 r2 h2 hlt
      constructor
      · have := heq ▸ h1
        exact List.mem_range.mp this
      · have := heq ▸ h2
        exact List.mem_range.mp this

/-- Witness for C2 at a concrete input: one event, gradient 2, hessian 3. -/
theorem hessian_prepare_tree_params_newton_witness :
    (((hessianPrepareTreeParams (fun _ => [2]) (fun _ => [3]) [0]).1.getD 0 0
        = ((fun _ => [2]) ([0] : List ℝ) : List ℝ).getD 0 0
          / (((fun _ => [3]) ([0] : List ℝ) : List ℝ).getD 0 0 + 0.01))
    ∧ ((hessianPrepareTreeParams (fun _ => [2]) (fun _ => [3]) [0]).2.getD 0 0
        = ((fun _ => [3]) ([0] : List ℝ) : List ℝ).getD 0 0 + 0.01)) :=
  hessian_prepare_tree_params_newton (fun _ => [2]) (fun _ => [3]) [0] 0
    (by norm_num) (by norm_num)

/-! ### Flatness helper lemmas -/

theorem indicator_sum_eq_count (l : List ℕ) (p : ℕ → Bool) :
    (l.map (fun i => if p i then (1 : ℝ) else 0)).sum = ((l.filter p).length : ℝ) := by
  induction l with
  | nil => simp
  | cons a t ih =>
    by_cases h : p a
    · simp [List.filter_cons, h, ih]
      ring
    · simp [List.filter_cons, h, ih]

theorem fitWarns_iff (st : FlatnessFitted) :
    fitWarns st ↔ (outOfBinsCount st : ℝ) / (st.y.length : ℝ) > 0.01 := by
  rw [fitWarns, npMean, indicator_sum_eq_count, outOfBinsCount]
  simp

/-! ### C6 -/

/-- C6: for every fitted flatness loss with any group structure and any prediction
vector whose rank positions are identical within every flatness group and within each
uniform label globally (every event's local weighted rank position equals its global
one), the flatness term of the gradient is exactly zero at every event, so with the
default `allow_wrong_signs = True` the returned gradient equals only the ada term
`ada_coefficient * y_signed * weight * exp(clip(-y_signed * y_pred, -1e5, 2))`. -/
theorem flatness_rank_identical_gradient_is_ada (st : FlatnessFitted) (y_pred : List ℝ)
    (i : ℕ) (hsigns : st.allowWrongSigns = true)
    (hpos : ∀ l ∈ st.uniformLabels, ∀ g ∈ st.groupsOf l, ∀ j, j < g.length →
      (localPositions st y_pred g).getD j 0
        = globalPositionAt st y_pred l (g.getD j 0)) :
    flatnessNegativeGradient st y_pred i
      = st.adaCoefficient * ySignedAt st.y i * st.sampleWeight.getD i 0
        * expMargin (-(ySignedAt st.y i) * y_pred.getD i 0) := by
  have hflat : flatGradAt st y_pred i = 0 := by
    rw [flatGradAt]
    apply List.sum_eq_zero
    intro x hx
    obtain ⟨l, hl, rfl⟩ := List.mem_map.mp hx
    apply List.sum_eq_zero
    intro z hz
    obtain ⟨g, hg, rfl⟩ := List.mem_map.mp hz
    apply Finset.sum_eq_zero
    intro j hj
    by_cases hji : g.getD j 0 = i
    · rw [if_pos hji, hpos l hl g hg j (Finset.mem_range.mp hj)]
      simp [binGradient]
    · rw [if_neg hji]
  simp only [flatnessNegativeGradient, hsigns, if_true, hflat, zero_mul, zero_add]

/-- Witness for C6: the fitted loss `flatnessExample` (two events of label 0, one group
holding the whole label) with predictions [0, 1]; local and global positions coincide
literally, and the gradient at event 0 is the pure ada term. -/
theorem flatness_rank_identical_witness :
    flatnessNegativeGradient flatnessExample [0, 1] 0
      = flatnessExample.adaCoefficient * ySignedAt flatnessExample.y 0
        * flatnessExample.sampleWeight.getD 0 0
        * expMargin (-(ySignedAt flatnessExample.y 0) * ([0, 1] : List ℝ).getD 0 0) :=
  flatness_rank_identical_gradient_is_ada flatnessExample [0, 1] 0 rfl (by
    intro l hl g hg j hj
    have hl0 : l = 0 := by simpa [flatnessExample] using hl
    subst hl0
    have hg0 : g = [0, 1] := by simpa [flatnessExample] using hg
    subst hg0
    have hli : labelIndices flatnessExample.y 0 = [0, 1] := by decide
    have hj2 : j < 2 := by simpa using hj
    interval_cases j
    · simp [globalPositionAt, hli, localPositions]
    · simp [globalPositionAt, hli, localPositions])

/-! ### C7 -/

/-- C7 counterexample: in `flatnessWarnExample` half of the uniform-class events (one of
two) are assigned to no flatness group — far more than 1% — yet `fit` does not warn,
because the code compares `mean(out_of_bins)` over all 100 events (1/100, not > 0.01). -/
theorem flatness_warning_counterexample :
    ¬ fitWarns flatnessWarnExample
    ∧ ((outOfBinsCount flatnessWarnExample : ℝ)
        / (uniformEventsCount flatnessWarnExample : ℝ) > 0.01) := by
  have hc : outOfBinsCount flatnessWarnExample = 1 := by decide
  have hu : uniformEventsCount flatnessWarnExample = 2 := by decide
  have hn : flatnessWarnExample.y.length = 100 := by decide
  constructor
  · rw [fitWarns_iff, hc, hn]
    norm_num
  · rw [hc, hu]
    norm_num

/-- C7 amended: `fit` emits its warning iff strictly more than 1% of ALL events (not of
the uniform-class events) are uniform-class events assigned to no flatness group; fit
still completes for such events: they contribute zero to the flatness gradient, and the
divided weight clamps their occurrence count to at least 1. -/
theorem flatness_warning_characterization (st : FlatnessFitted) (y_pred : List ℝ)
    (i : ℕ) :
    (fitWarns st ↔ (outOfBinsCount st : ℝ) / (st.y.length : ℝ) > 0.01)
    ∧ ((∀ l ∈ st.uniformLabels, ∀ g ∈ st.groupsOf l, i ∉ g)
        → flatGradAt st y_pred i = 0)
    ∧ (occurrencesAt st i = 0 → dividedWeightAt st i = st.sampleWeight.getD i 0) := by
  refine ⟨fitWarns_iff st, ?_, ?_⟩
  · intro hnog
    rw [flatGradAt]
    apply List.sum_eq_zero
    intro x hx
    obtain ⟨l, hl, rfl⟩ := List.mem_map.mp hx
    apply List.sum_eq_zero
    intro z hz
    obtain ⟨g, hg, rfl⟩ := List.mem_map.mp hz
    apply Finset.sum_eq_zero
    intro j hj
    rw [if_neg]
    intro hji
    have hj2 : j < g.length := Finset.mem_range.mp hj
    have hmem : g.getD j 0 ∈ g := by
      rw [getD_eq_getElem g 0 j hj2]
      exact List.getElem_mem hj2
    exact hnog l hl g hg (hji ▸ hmem)
  · intro hocc
    rw [dividedWeightAt, hocc]
    norm_num

/-! ### C4 -/

/-- C4: for every fitted ReweightLossFunction, every terminal-region assignment and every
leaf, the returned leaf value equals
`log(clip(target_sum, 0) + regularization) - log(clip(original_sum, 0) + regularization)`,
and — holding the clamped original-class sum fixed — that value is monotonically
increasing in the target-class weight sum (for the positive regularization of a fitted
loss). -/
theorem reweight_leaf_monotone (st : ReweightFitted) (tr : List ℕ) (y_pred : List ℝ)
    (b : ℕ) (t1 t2 o : ℝ) (hb : b < bincountLen tr) (hreg : 0 < st.regularization)
    (ht : t1 ≤ t2) :
    ((reweightPrepareNewLeavesValues st tr y_pred).getD b 0
      = reweightLeafValue st.regularization (reweightTargetSum st tr y_pred b)
          (reweightOriginalSum st tr y_pred b))
    ∧ reweightLeafValue st.regularization t1 o
        ≤ reweightLeafValue st.regularization t2 o := by
  constructor
  · have hlen : b < (reweightPrepareNewLeavesValues st tr y_pred).length := by
      simpa [reweightPrepareNewLeavesValues] using hb
    rw [getD_eq_getElem _ _ _ hlen]
    simp [reweightPrepareNewLeavesValues]
  · rw [reweightLeafValue, reweightLeafValue]
    have h1 : (0 : ℝ) < max t1 0 + st.regularization :=
      add_pos_of_nonneg_of_pos (le_max_right t1 0) hreg
    have hle : max t1 0 + st.regularization ≤ max t2 0 + st.regularization :=
      add_le_add_right (max_le_max ht le_rfl) _
    exact sub_le_sub_right (Real.log_le_log h1 hle) _

/-- Witness for C4: the fitted loss `reweightExample` with both events in leaf 0, zero
predictions, and target sums 1 ≤ 2 at fixed original sum 1. -/
theorem reweight_leaf_monotone_witness :
    ((reweightPrepareNewLeavesValues reweightExample [0, 0] [0, 0]).getD 0 0
      = reweightLeafValue reweightExample.regularization
          (reweightTargetSum reweightExample [0, 0] [0, 0] 0)
          (reweightOriginalSum reweightExample [0, 0] [0, 0] 0))
    ∧ reweightLeafValue reweightExample.regularization 1 1
        ≤ reweightLeafValue reweightExample.regularization 2 1 :=
  reweight_leaf_monotone reweightExample [0, 0] [0, 0] 0 1 2 1 (by decide)
    (by norm_num [reweightExample]) (by norm_num)

/-! ### C10 -/

/-- C10: `ReweightLossFunction.fit` raises whenever `sample_weight` is None, because the
signed-indicator line applies `numpy.sign` to the raw `sample_weight` argument even
though `self.sample_weight` was already defaulted to ones; the default-to-uniform path
never yields a fitted state at this entry point, while any explicit weight vector with
valid 0/1 labels does. -/
theorem reweight_fit_none_raises (regularization : ℝ) (y : List ℕ) (w : List ℝ) :
    reweightFit regularization y none = Except.error ()
    ∧ ((∀ l ∈ y, l = 0 ∨ l = 1) →
        ∃ st, reweightFit regularization y (some w) = Except.ok st
          ∧ st.sampleWeight = w) := by
  constructor
  · by_cases h : ∀ l ∈ y, l = 0 ∨ l = 1
    · rw [reweightFit, if_pos h]
    · rw [reweightFit, if_neg h]
  · intro hvalid
    refine ⟨⟨y, w, (List.range y.length).map
        (fun i => (2 * (y.getD i 0 : ℝ) - 1) * npSign (w.getD i 0)), regularization⟩,
      ?_, rfl⟩
    rw [reweightFit, if_pos hvalid]

/-! ### C5 -/

/-- C5 counterexample: the weight vector [0, 2] is accepted by the (spec-modelled) input
normalization — it is non-negative with mean 1 — yet the first entry of
`predict_weights` is `exp(score) * 0 = 0`, which is not strictly positive. -/
theorem gb_predict_weights_zero_counterexample :
    checkSampleWeightNormalize 2 (some [0, 2]) = Except.ok [0, 2]
    ∧ gbPredictWeights [0, 0] 2 (some [0, 2]) = Except.ok [0, 2]
    ∧ ¬ (∀ x ∈ ([0, 2] : List ℝ), 0 < x) := by
  have hmean : npMean [0, 2] = 1 := by norm_num [npMean]
  have hcond : ([0, 2] : List ℝ).length = 2 ∧ ∀ x ∈ ([0, 2] : List ℝ), 0 ≤ x := by
    refine ⟨rfl, ?_⟩
    intro x hx
    rcases List.mem_cons.mp hx with rfl | hx2
    · exact le_rfl
    · simp only [List.mem_singleton] at hx2
      rw [hx2]
      norm_num
  have hc : checkSampleWeightNormalize 2 (some [0, 2]) = Except.ok [0, 2] := by
    rw [checkSampleWeightNormalize, if_pos hcond]
    simp [hmean]
  refine ⟨hc, ?_, ?_⟩
  · rw [gbPredictWeights, hc]
    simp [Real.exp_zero]
  · intro hall
    have := hall 0 (List.mem_cons_self _ _)
    exact lt_irrefl 0 this

/-- C5 amended: each entry of `predict_weights` equals `exp` of the boosted decision
score times the normalized input weight; for accepted inputs the entries are therefore
nonnegative, strictly positive exactly where the normalized weight is positive, and in
particular all strictly positive when `original_weight` is omitted (uniform weights). -/
theorem gb_predict_weights_form (score : List ℝ) (n : ℕ) (ow : Option (List ℝ))
    (w res : List ℝ) (i : ℕ)
    (hw : checkSampleWeightNormalize n ow = Except.ok w)
    (hres : gbPredictWeights score n ow = Except.ok res) (hi : i < res.length) :
    res.getD i 0 = Real.exp (score.getD i 0) * w.getD i 0
    ∧ (0 ≤ w.getD i 0 → 0 ≤ res.getD i 0)
    ∧ (0 < w.getD i 0 → 0 < res.getD i 0)
    ∧ (ow = none → 0 < res.getD i 0) := by
  rw [gbPredictWeights, hw] at hres
  have hres2 : res = List.zipWith (fun s x => Real.exp s * x) score w := by
    injection hres with h
    exact h.symm
  subst hres2
  have hi1 : i < score.length := by
    have := hi
    simp only [List.length_zipWith, lt_min_iff] at this
    exact this.1
  have hi2 : i < w.length := by
    have := hi
    simp only [List.length_zipWith, lt_min_iff] at this
    exact this.2
  have hval : (List.zipWith (fun s x => Real.exp s * x) score w).getD i 0
      = Real.exp (score.getD i 0) * w.getD i 0 := by
    rw [getD_eq_getElem _ _ _ hi, List.getElem_zipWith,
      ← getD_eq_getElem score 0 _ hi1, ← getD_eq_getElem w 0 _ hi2]
  refine ⟨hval, ?_, ?_, ?_⟩
  · intro h0
    rw [hval]
    exact mul_nonneg (Real.exp_pos _).le h0
  · intro h0
    rw [hval]
    exact mul_pos (Real.exp_pos _) h0
  · intro hnone
    subst hnone
    have hwrep : w = List.replicate n 1 := by
      rw [checkSampleWeightNormalize] at hw
      injection hw with h
      exact h.symm
    subst hwrep
    have hone : (List.replicate n (1 : ℝ)).getD i 0 = 1 := by
      rw [getD_eq_getElem _ _ _ hi2, List.getElem_replicate]
    rw [hval, hone, mul_one]
    exact Real.exp_pos _

/-- Witness for C5's amended claim: one event, score 0, default weights. -/
theorem gb_predict_weights_form_witness :
    (([Real.exp 0 * 1] : List ℝ).getD 0 0
        = Real.exp (([0] : List ℝ).getD 0 0) * ([1] : List ℝ).getD 0 0)
    ∧ (0 ≤ ([1] : List ℝ).getD 0 0 → 0 ≤ ([Real.exp 0 * 1] : List ℝ).getD 0 0)
    ∧ (0 < ([1] : List ℝ).getD 0 0 → 0 < ([Real.exp 0 * 1] : List ℝ).getD 0 0)
    ∧ ((none : Option (List ℝ)) = none → 0 < ([Real.exp 0 * 1] : List ℝ).getD 0 0) :=
  gb_predict_weights_form [0] 1 none [1] [Real.exp 0 * 1] 0 rfl rfl (by simp)

end
